import Mathlib

/-!
Verification of the provenance generator in
`cmd/slsa-provenance/cli/generate.go`.

The development shallowly embeds the Go code: bytes are `Nat` values below
256, 32-bit machine words are `Nat` reduced modulo `2 ^ 32`, the filesystem
walked by `filepath.Walk` is an explicit tree value, and the environment
variable read by `builderID` is an explicit `String` parameter.
-/

namespace SLSA

/-! ### SHA-256 (`crypto/sha256`, FIPS 180-4) and hex encoding (`encoding/hex`) -/

/-- Truncate to a 32-bit word, as every Go `uint32` operation does. -/
def w32 (n : Nat) : Nat := n % 2 ^ 32

/-- Right rotation of a 32-bit word by `n` bits. -/
def rotr32 (n x : Nat) : Nat := ((x >>> n) ||| (x <<< (32 - n))) % 2 ^ 32

/-- The SHA-256 `Ch` function. -/
def shaCh (x y z : Nat) : Nat := (x &&& y) ^^^ ((x ^^^ 0xffffffff) &&& z)

/-- The SHA-256 `Maj` function. -/
def shaMaj (x y z : Nat) : Nat := (x &&& y) ^^^ (x &&& z) ^^^ (y &&& z)

/-- The SHA-256 big Sigma-0 function. -/
def bSig0 (x : Nat) : Nat := rotr32 2 x ^^^ rotr32 13 x ^^^ rotr32 22 x

/-- The SHA-256 big Sigma-1 function. -/
def bSig1 (x : Nat) : Nat := rotr32 6 x ^^^ rotr32 11 x ^^^ rotr32 25 x

/-- The SHA-256 small sigma-0 function. -/
def sSig0 (x : Nat) : Nat := rotr32 7 x ^^^ rotr32 18 x ^^^ (x >>> 3)

/-- The SHA-256 small sigma-1 function. -/
def sSig1 (x : Nat) : Nat := rotr32 17 x ^^^ rotr32 19 x ^^^ (x >>> 10)

/-- The 64 SHA-256 round constants of FIPS 180-4 (the first 32 bits of the
fractional parts of the cube roots of the first 64 primes, usually printed
in hex: `0x428a2f98, 0x71374491, ...`), here as decimal numerals. -/
def shaK : List Nat :=
  [1116352408, 1899447441, 3049323471, 3921009573, 961987163,
   1508970993, 2453635748, 2870763221, 3624381080, 310598401,
   607225278, 1426881987, 1925078388, 2162078206, 2614888103,
   3248222580, 3835390401, 4022224774, 264347078, 604807628,
   770255983, 1249150122, 1555081692, 1996064986, 2554220882,
   2821834349, 2952996808, 3210313671, 3336571891, 3584528711,
   113926993, 338241895, 666307205, 773529912, 1294757372,
   1396182291, 1695183700, 1986661051, 2177026350, 2456956037,
   2730485921, 2820302411, 3259730800, 3345764771, 3516065817,
   3600352804, 4094571909, 275423344, 430227734, 506948616,
   659060556, 883997877, 958139571, 1322822218, 1537002063,
   1747873779, 1955562222, 2024104815, 2227730452, 2361852424,
   2428436474, 2756734187, 3204031479, 3329325298]

/-- The SHA-256 initial hash value of FIPS 180-4 (the first 32 bits of the
fractional parts of the square roots of the first 8 primes, usually printed
in hex: `0x6a09e667, 0xbb67ae85, ...`), here as decimal numerals. -/
def shaH0 : List Nat :=
  [1779033703, 3144134277, 1013904242, 2773480762,
   1359893119, 2600822924, 528734635, 1541459225]

/-- The eight 32-bit working variables of the compression function. -/
structure ShaState where
  a : Nat
  b : Nat
  c : Nat
  d : Nat
  e : Nat
  f : Nat
  g : Nat
  h : Nat

/-- One round of the SHA-256 compression function; `kw` is the pair of the
round constant and the message-schedule word. -/
def shaRound (st : ShaState) (kw : Nat × Nat) : ShaState :=
  let t1 := w32 (st.h + bSig1 st.e + shaCh st.e st.f st.g + kw.1 + kw.2)
  let t2 := w32 (bSig0 st.a + shaMaj st.a st.b st.c)
  ⟨w32 (t1 + t2), st.a, st.b, st.c, w32 (st.d + t1), st.e, st.f, st.g⟩

/-- Extend the 16-word message block by `k` further schedule words. -/
def extendW : List Nat → Nat → List Nat
  | w, 0 => w
  | w, k + 1 =>
    let t := w.length
    extendW (w ++ [w32 (sSig1 (w.getD (t - 2) 0) + w.getD (t - 7) 0 +
      sSig0 (w.getD (t - 15) 0) + w.getD (t - 16) 0)]) k

/-- Big-endian byte decomposition: `beBytes k v` is the low `k` bytes of `v`,
most significant first. -/
def beBytes : Nat → Nat → List Nat
  | 0, _ => []
  | k + 1, v => (v >>> (8 * k)) % 256 :: beBytes k v

/-- Group bytes into big-endian 32-bit words. -/
def bytesToWords : List Nat → List Nat
  | b0 :: b1 :: b2 :: b3 :: rest =>
    (b0 * 2 ^ 24 + b1 * 2 ^ 16 + b2 * 2 ^ 8 + b3) :: bytesToWords rest
  | _ => []

/-- Split a list into chunks of 64 elements; the fuel argument is an upper
bound on the number of chunks, so `fuel = l.length` always suffices. -/
def chunk64Fuel : Nat → List Nat → List (List Nat)
  | 0, _ => []
  | _, [] => []
  | fuel + 1, l => l.take 64 :: chunk64Fuel fuel (l.drop 64)

/-- Split a message into its 64-byte blocks. -/
def chunk64 (l : List Nat) : List (List Nat) := chunk64Fuel l.length l

/-- SHA-256 padding: append `0x80`, zero bytes up to 56 mod 64, then the
64-bit big-endian bit length. -/
def padMsg (m : List Nat) : List Nat :=
  m ++ 0x80 :: (List.replicate ((119 - m.length % 64) % 64) 0 ++
    beBytes 8 (8 * m.length))

/-- Compress one 64-byte block into the running 8-word hash value. -/
def processBlock (H : List Nat) (block : List Nat) : List Nat :=
  let W := extendW (bytesToWords block) 48
  let st0 : ShaState :=
    ⟨H.getD 0 0, H.getD 1 0, H.getD 2 0, H.getD 3 0,
     H.getD 4 0, H.getD 5 0, H.getD 6 0, H.getD 7 0⟩
  let st := (shaK.zip W).foldl shaRound st0
  [w32 (H.getD 0 0 + st.a), w32 (H.getD 1 0 + st.b), w32 (H.getD 2 0 + st.c),
   w32 (H.getD 3 0 + st.d), w32 (H.getD 4 0 + st.e), w32 (H.getD 5 0 + st.f),
   w32 (H.getD 6 0 + st.g), w32 (H.getD 7 0 + st.h)]

/-- SHA-256 of a byte sequence, as `sha256.Sum256` computes it: the 32-byte
digest. -/
def sha256 (m : List Nat) : List Nat :=
  (((chunk64 (padMsg m)).foldl processBlock shaH0).map (beBytes 4)).flatten

/-- The digit table of Go `encoding/hex` (`hextable`); all lowercase. -/
def hexDigits : List Char := "0123456789abcdef".data

/-- The two hex digits of one byte, high nibble first, as `hex.EncodeToString`
emits them. -/
def hexByte (b : Nat) : List Char :=
  [hexDigits.getD (b >>> 4) '0', hexDigits.getD (b % 16) '0']

/-- Hex encoding of a byte sequence (`hex.EncodeToString`). -/
def hexEncode (bs : List Nat) : String := ⟨(bs.map hexByte).flatten⟩

/-! ### The filesystem seen by `filepath.Walk`

A snapshot of the tree rooted at the scanned path: a regular file with its
contents, or a directory with named entries. -/

inductive FSEntry where
  | file (content : List Nat) : FSEntry
  | dir (entries : List (String × FSEntry)) : FSEntry
deriving Repr

/-- Byte-order comparison of character lists; Go compares strings by their
UTF-8 bytes, which orders valid strings exactly by code point. -/
def listLe : List Char → List Char → Bool
  | [], _ => true
  | _ :: _, [] => false
  | a :: as, b :: bs =>
    if a.toNat < b.toNat then true
    else if b.toNat < a.toNat then false
    else listLe as bs

/-- Go's string order (`sort.Strings`), on the underlying characters. -/
def strLe (a b : String) : Bool := listLe a.data b.data

/-- Insert an entry into a name-sorted entry list. -/
def insertByName (p : String × FSEntry) :
    List (String × FSEntry) → List (String × FSEntry)
  | [] => [p]
  | q :: qs => if strLe p.1 q.1 then p :: q :: qs else q :: insertByName p qs

/-- Sort directory entries by name, as `readDirNames` does before the walk
descends. -/
def sortByName : List (String × FSEntry) → List (String × FSEntry)
  | [] => []
  | p :: ps => insertByName p (sortByName ps)

mutual
/-- Sort every directory level of the tree by name.  `filepath.Walk` sorts
each directory listing as it reaches it; walking `sortTree e` in the given
entry order visits exactly the same sequence of files. -/
def sortTree : FSEntry → FSEntry
  | .file c => .file c
  | .dir es => .dir (sortByName (sortTreeList es))

/-- `sortTree` applied to each entry of a directory listing. -/
def sortTreeList : List (String × FSEntry) → List (String × FSEntry)
  | [] => []
  | p :: rest => (p.1, sortTree p.2) :: sortTreeList rest
end

/-- Go `filepath.Base`: strip trailing separators, then keep the last
path element; `""` gives `"."` and an all-separator path gives `"/"`. -/
def basename (p : String) : String :=
  if p = "" then "."
  else
    let q := p.data.reverse.dropWhile (fun c => c = '/')
    if q = [] then "/"
    else ⟨(q.takeWhile (fun c => ¬ c = '/')).reverse⟩

/-- Join path components with `'/'`, the value `filepath.Rel(root, abspath)`
produces when `abspath` lies strictly below `root`. -/
def joinComps (comps : List String) : String :=
  ⟨List.intercalate ['/'] (comps.map String.data)⟩

/-- The subject name for the file reached through components `comps` below
`root`: `filepath.Rel` gives `"."` exactly when `comps = []` (the walked root
is itself the file), and the code then substitutes `filepath.Base root`. -/
def relName (root : String) (comps : List String) : String :=
  match comps with
  | [] => basename root
  | _ :: _ => joinComps comps

/-- An in-toto subject: a name and a digest set.
Modelled from the spec: `intoto.Subject` (lib/intoto, not in src/) is a
record of the subject name and a digest map; the single-key map is an
association list here. -/
structure Subject where
  name : String
  digest : List (String × String)
deriving Repr, DecidableEq

/-- The digest set recorded for file contents `c`:
`{"sha256": hex(sha256(c))}`. -/
def digestOf (c : List Nat) : List (String × String) :=
  [("sha256", hexEncode (sha256 c))]

mutual
/-- The walk callback of `subjects` folded over a (pre-sorted) tree:
regular files append one subject named by their path relative to the root;
directories append nothing. -/
def walkCollect (root : String) (comps : List String) : FSEntry → List Subject
  | .file c => [⟨relName root comps, digestOf c⟩]
  | .dir es => walkCollectList root comps es

/-- `walkCollect` over the entries of a directory, in listing order. -/
def walkCollectList (root : String) (comps : List String) :
    List (String × FSEntry) → List Subject
  | [] => []
  | (n, e) :: rest =>
    walkCollect root (comps ++ [n]) e ++ walkCollectList root comps rest
end

mutual
/-- Specification view of the tree: the `(components, contents)` pairs of
all regular files, in listing order. -/
def walkFiles : FSEntry → List (List String × List Nat)
  | .file c => [([], c)]
  | .dir es => walkFilesList es

/-- `walkFiles` over the entries of a directory, in listing order. -/
def walkFilesList : List (String × FSEntry) → List (List String × List Nat)
  | [] => []
  | (n, e) :: rest =>
    (walkFiles e).map (fun pc => (n :: pc.1, pc.2)) ++ walkFilesList rest
end

mutual
/-- The number of regular files in the tree. -/
def fileCount : FSEntry → Nat
  | .file _ => 1
  | .dir es => fileCountList es

/-- `fileCount` summed over a directory listing. -/
def fileCountList : List (String × FSEntry) → Nat
  | [] => 0
  | p :: rest => fileCount p.2 + fileCountList rest
end

mutual
/-- Number of tree nodes; the induction measure used by the proofs below. -/
def esize : FSEntry → Nat
  | .file _ => 1
  | .dir es => 1 + esizeList es

/-- `esize` summed over a directory listing. -/
def esizeList : List (String × FSEntry) → Nat
  | [] => 0
  | p :: rest => esize p.2 + esizeList rest
end

/-- A legal filesystem name: nonempty and free of the path separator. -/
def validName (n : String) : Bool :=
  decide (¬ n = "") && decide ('/' ∉ n.data)

/-- Names of a listing are pairwise distinct. -/
def namesDistinct : List String → Bool
  | [] => true
  | n :: rest => decide (n ∉ rest) && namesDistinct rest

mutual
/-- Well-formedness a real filesystem guarantees: per-directory names are
distinct, nonempty and separator-free. -/
def wfEntry : FSEntry → Bool
  | .file _ => true
  | .dir es => namesDistinct (es.map Prod.fst) && wfList es

/-- `wfEntry` over a directory listing. -/
def wfList : List (String × FSEntry) → Bool
  | [] => true
  | (n, e) :: rest => validName n && wfEntry e && wfList rest
end

/-- The file at path `p` (components below the root) is a regular file with
contents `c`. -/
inductive ResolvesFile : FSEntry → List String → List Nat → Prop where
  | here (c : List Nat) : ResolvesFile (.file c) [] c
  | child {es : List (String × FSEntry)} {n : String} {e : FSEntry}
      {p : List String} {c : List Nat} :
      (n, e) ∈ es → ResolvesFile e p c → ResolvesFile (.dir es) (n :: p) c

/-! ### The `subjects` scan and the `Generate` command -/

/-- The errors the scan can report; `notFound` models the `lstat` failure
`filepath.Walk` hands to the callback for a nonexistent root, which the
callback returns unchanged. -/
inductive ScanError where
  | notFound (path : String)
deriving Repr, DecidableEq

/-- The `subjects` function: walk the file or directory at `root` and hash
all files.  `entry` is the snapshot `lstat(root)` sees: `none` when the path
does not resolve to an existing entry. -/
def subjects (root : String) : Option FSEntry → Except ScanError (List Subject)
  | none => .error (.notFound root)
  | some e => .ok (walkCollect root [] (sortTree e))

/-- The scan step of `Generate.Exec`: an `os.IsNotExist` error from
`subjects` becomes the message built by
`fmt.Errorf("resource path not found: [provided=%s]", *artifactPath)`. -/
def generateScan (artifactPath : String) (entry : Option FSEntry) :
    Except String (List Subject) :=
  match subjects artifactPath entry with
  | .error (.notFound _) =>
    .error ("resource path not found: [provided=" ++ artifactPath ++ "]")
  | .ok s => .ok s

/-! ### Builder identity and statement assembly -/

/-- `gitHubHostedIDSuffix` from the source. -/
def gitHubHostedIDSuffix : String := "/Attestations/GitHubHostedActions@v1"

/-- `selfHostedIDSuffix` from the source. -/
def selfHostedIDSuffix : String := "/Attestations/SelfHostedActions@v1"

/-- `typeID` from the source: the recipe type constant. -/
def typeID : String := "https://github.com/Attestations/GitHubActionsWorkflow@v1"

/-- The `builderID` function.  `githubActionsEnv` is the value
`os.Getenv("GITHUB_ACTIONS")` returns at the moment of the call (the empty
string when the variable is unset). -/
def builderID (githubActionsEnv : String) (repoURI : String) : String :=
  if githubActionsEnv = "true" then repoURI ++ gitHubHostedIDSuffix
  else repoURI ++ selfHostedIDSuffix

/-- Modelled from the spec: the already-parsed build context
(`github.Context` and the event `inputs` mapping of `github.AnyEvent`, from
lib/github which is not in src/) with the fields `Generate` reads:
repository identifier, commit SHA, workflow name, run ID, and the trigger
event's `inputs` mapping. -/
structure GitHubContext where
  repository : String
  sha : String
  workflow : String
  runID : String
  eventInputs : List (String × String)
deriving Repr, DecidableEq

/-- Modelled from the spec: `intoto.Recipe` (lib/intoto, not in src/) —
`{type, definedInMaterial, entryPoint, arguments}`. -/
structure Recipe where
  rtype : String
  definedInMaterial : Nat
  entryPoint : String
  arguments : List (String × String)
deriving Repr, DecidableEq

/-- Modelled from the spec: `intoto.Item`, a material —
`{uri, digest}`. -/
structure Item where
  uri : String
  digest : List (String × String)
deriving Repr, DecidableEq

/-- Modelled from the spec: the provenance metadata holding the
build-invocation identifier. -/
structure ProvMetadata where
  buildInvocationID : String
deriving Repr, DecidableEq

/-- Modelled from the spec: the SLSA v0.1 predicate —
builder identity, recipe, metadata and materials. -/
structure Predicate where
  builderId : String
  recipe : Recipe
  metadata : ProvMetadata
  materials : List Item
deriving Repr, DecidableEq

/-- Modelled from the spec: the in-toto statement —
`_type`, `predicateType`, `subject` and `predicate`. -/
structure Statement where
  stype : String
  predicateType : String
  subject : List Subject
  predicate : Predicate
deriving Repr, DecidableEq

/-- The in-toto statement type constant (spec section 6). -/
def inTotoStatementType : String := "https://in-toto.io/Statement/v0.1"

/-- The SLSA v0.1 predicate type constant (spec section 6). -/
def slsaPredicateType : String := "https://slsa.dev/provenance/v0.1"

/-- The statement assembly of `Generate.Exec` after the context documents
have been parsed: derive `repoURI`, the builder identity and the metadata,
then fill in recipe, entry point, arguments and the single material. -/
def buildStatement (subs : List Subject) (githubActionsEnv : String)
    (gh : GitHubContext) : Statement :=
  let repoURI := "https://github.com/" ++ gh.repository
  { stype := inTotoStatementType
    predicateType := slsaPredicateType
    subject := subs
    predicate :=
      { builderId := builderID githubActionsEnv repoURI
        recipe :=
          { rtype := typeID
            definedInMaterial := 0
            entryPoint := gh.workflow
            arguments := gh.eventInputs }
        metadata := { buildInvocationID := repoURI ++ "/actions/runs/" ++ gh.runID }
        materials := [{ uri := "git+" ++ repoURI, digest := [("sha1", gh.sha)] }] } }

/-- The statement-building step as `Generate.Exec` runs it, with its error
channel: once the subject list and the parsed context are in hand, no code
path of the assembly returns an error. -/
def buildStep (subs : List Subject) (githubActionsEnv : String)
    (gh : GitHubContext) : Except String Statement :=
  .ok (buildStatement subs githubActionsEnv gh)

/-! ### Serialization

Modelled from the spec: the pretty-printed two-space-indent JSON document of
section 6 (`json.MarshalIndent(stmt, "", "  ")` applied to the intoto
statement types, which are not in src/). -/

/-- JSON string escaping for the two characters that must be escaped. -/
def jsonEscChar (c : Char) : List Char :=
  if c = '"' then ['\\', '"']
  else if c = '\\' then ['\\', '\\']
  else [c]

/-- A JSON string literal. -/
def jsonStr (s : String) : String :=
  "\"" ++ ⟨(s.data.map jsonEscChar).flatten⟩ ++ "\""

/-- Concatenate rendered items with a separator. -/
def joinSep (sep : String) : List String → String
  | [] => ""
  | [x] => x
  | x :: y :: xs => x ++ sep ++ joinSep sep (y :: xs)

/-- A JSON object from rendered fields, indented by `ind`. -/
def renderObj (ind : String) (fields : List (String × String)) : String :=
  if fields = [] then "\x7b\x7d"
  else
    "\x7b\n" ++
      joinSep ",\n" (fields.map (fun f => ind ++ "  " ++ jsonStr f.1 ++ ": " ++ f.2)) ++
      "\n" ++ ind ++ "\x7d"

/-- A JSON array from rendered items, indented by `ind`. -/
def renderArr (ind : String) (items : List String) : String :=
  if items = [] then "[]"
  else
    "[\n" ++ joinSep ",\n" (items.map (fun s => ind ++ "  " ++ s)) ++
      "\n" ++ ind ++ "]"

/-- A JSON object whose values are all strings (a digest set or the
`arguments` mapping). -/
def renderStrMap (ind : String) (ps : List (String × String)) : String :=
  renderObj ind (ps.map (fun p => (p.1, jsonStr p.2)))

/-- Render one subject. -/
def renderSubject (ind : String) (s : Subject) : String :=
  renderObj ind [("name", jsonStr s.name), ("digest", renderStrMap (ind ++ "  ") s.digest)]

/-- Render one material item. -/
def renderItem (ind : String) (it : Item) : String :=
  renderObj ind [("uri", jsonStr it.uri), ("digest", renderStrMap (ind ++ "  ") it.digest)]

/-- Render the recipe. -/
def renderRecipe (ind : String) (r : Recipe) : String :=
  renderObj ind
    [("type", jsonStr r.rtype),
     ("definedInMaterial", toString r.definedInMaterial),
     ("entryPoint", jsonStr r.entryPoint),
     ("arguments", renderStrMap (ind ++ "  ") r.arguments)]

/-- Render the predicate. -/
def renderPredicate (ind : String) (p : Predicate) : String :=
  renderObj ind
    [("builder", renderObj (ind ++ "  ") [("id", jsonStr p.builderId)]),
     ("recipe", renderRecipe (ind ++ "  ") p.recipe),
     ("metadata", renderObj (ind ++ "  ")
        [("buildInvocationId", jsonStr p.metadata.buildInvocationID)]),
     ("materials", renderArr (ind ++ "  ") (p.materials.map (renderItem (ind ++ "    "))))]

/-- Render the whole statement: the serialized payload bytes. -/
def renderStatement (st : Statement) : String :=
  renderObj ""
    [("_type", jsonStr st.stype),
     ("predicateType", jsonStr st.predicateType),
     ("subject", renderArr "  " (st.subject.map (renderSubject "    "))),
     ("predicate", renderPredicate "  " st.predicate)]

/-- A directory listing whose walk emits `a/b.txt` before `a.txt`: the entry
`"a"` sorts before `"a.txt"`, yet `"a.txt"` sorts before `"a/b.txt"` as
strings, so the emitted subject names are not themselves sorted. -/
def exampleEntries : List (String × FSEntry) :=
  [("a", .dir [("b.txt", .file [])]), ("a.txt", .file [1])]

/-! ## Theorems -/

/-- Two strings with the same character data are equal. -/
theorem string_data_inj {s t : String} (h : s.data = t.data) : s = t := by
  exact congrArg String.mk h

/-- Left cancellation for string append. -/
theorem string_append_left_cancel {a b c : String} (h : a ++ b = a ++ c) :
    b = c := by
  apply string_data_inj
  have hd := congrArg String.data h
  rw [String.data_append, String.data_append] at hd
  exact List.append_cancel_left hd

/-- `insertByName` only reorders: the result is a permutation. -/
theorem insertByName_perm (p : String × FSEntry)
    (l : List (String × FSEntry)) : List.Perm (insertByName p l) (p :: l) := by
  induction l with
  | nil => simp [insertByName]
  | cons q qs ih =>
    simp only [insertByName]
    split
    · exact List.Perm.refl _
    · exact (ih.cons q).trans (List.Perm.swap p q qs)

/-- `sortByName` only reorders: the result is a permutation. -/
theorem sortByName_perm (l : List (String × FSEntry)) :
    List.Perm (sortByName l) l := by
  induction l with
  | nil => simp [sortByName]
  | cons p ps ih => exact (insertByName_perm p (sortByName ps)).trans (ih.cons p)

/-- Membership is unchanged by the per-directory sort. -/
theorem mem_sortByName {p : String × FSEntry} {l : List (String × FSEntry)} :
    p ∈ sortByName l ↔ p ∈ l := (sortByName_perm l).mem_iff

/-- `sortTreeList` maps `sortTree` over the entry values. -/
theorem sortTreeList_eq (es : List (String × FSEntry)) :
    sortTreeList es = es.map (fun p => (p.1, sortTree p.2)) := by
  induction es with
  | nil => rfl
  | cons p rest ih => simp [sortTreeList, ih]

/-- Every tree has positive size. -/
theorem esize_pos (e : FSEntry) : 0 < esize e := by
  cases e <;> simp [esize]

/-- A listing member's size is bounded by the listing's size. -/
theorem esize_le_of_mem {p : String × FSEntry}
    {l : List (String × FSEntry)} (h : p ∈ l) : esize p.2 ≤ esizeList l := by
  induction l with
  | nil => cases h
  | cons q rest ih =>
    rcases List.mem_cons.mp h with h' | h'
    · subst h'
      simp only [esizeList]
      omega
    · have := ih h'
      simp only [esizeList]
      omega

/-- `walkCollectList` over a listing, from the per-entry description. -/
theorem walkCollectList_eq (root : String) (comps : List String)
    (l : List (String × FSEntry))
    (ih : ∀ p ∈ l, ∀ comps', walkCollect root comps' p.2 =
      (walkFiles p.2).map
        (fun pc => ⟨relName root (comps' ++ pc.1), digestOf pc.2⟩)) :
    walkCollectList root comps l =
      (walkFilesList l).map
        (fun pc => ⟨relName root (comps ++ pc.1), digestOf pc.2⟩) := by
  induction l with
  | nil => rfl
  | cons p rest ihl =>
    obtain ⟨n, e⟩ := p
    simp only [walkCollectList, walkFilesList, List.map_append, List.map_map]
    rw [ih (n, e) (by simp) (comps ++ [n]),
      ihl (fun q hq => ih q (List.mem_cons_of_mem _ hq))]
    congr 1
    apply List.map_congr_left
    intro pc _
    simp [List.append_assoc]

/-- The subject walk emits, in walk order, one subject per walked file,
named by the joined relative path and carrying the sha256 digest. -/
theorem walkCollect_eq_walkFiles (root : String) (e : FSEntry)
    (comps : List String) :
    walkCollect root comps e =
      (walkFiles e).map
        (fun pc => ⟨relName root (comps ++ pc.1), digestOf pc.2⟩) := by
  suffices h : ∀ N e, esize e ≤ N → ∀ comps, walkCollect root comps e =
      (walkFiles e).map
        (fun pc => ⟨relName root (comps ++ pc.1), digestOf pc.2⟩) by
    exact h (esize e) e le_rfl comps
  intro N
  induction N with
  | zero =>
    intro e he
    have := esize_pos e
    omega
  | succ N ih =>
    intro e he comps
    cases e with
    | file c => simp [walkCollect, walkFiles]
    | dir es =>
      simp only [walkCollect, walkFiles]
      apply walkCollectList_eq
      intro p hp comps'
      apply ih
      have h1 := esize_le_of_mem hp
      simp only [esize] at he
      omega

/-- Length of the walked-file list of a directory, from the per-entry
lengths. -/
theorem walkFilesList_length (l : List (String × FSEntry))
    (ih : ∀ p ∈ l, (walkFiles p.2).length = fileCount p.2) :
    (walkFilesList l).length = fileCountList l := by
  induction l with
  | nil => rfl
  | cons p rest ihl =>
    obtain ⟨n, e⟩ := p
    simp only [walkFilesList, fileCountList, List.length_append, List.length_map]
    rw [ih (n, e) (by simp), ihl (fun q hq => ih q (List.mem_cons_of_mem _ hq))]

/-- The walk visits each regular file exactly once. -/
theorem walkFiles_length (e : FSEntry) :
    (walkFiles e).length = fileCount e := by
  suffices h : ∀ N e, esize e ≤ N → (walkFiles e).length = fileCount e by
    exact h (esize e) e le_rfl
  intro N
  induction N with
  | zero =>
    intro e he
    have := esize_pos e
    omega
  | succ N ih =>
    intro e he
    cases e with
    | file c => rfl
    | dir es =>
      simp only [walkFiles, fileCount]
      apply walkFilesList_length
      intro p hp
      apply ih
      have h1 := esize_le_of_mem hp
      simp only [esize] at he
      omega

/-- `fileCountList` as a sum over the listing. -/
theorem fileCountList_eq_sum (l : List (String × FSEntry)) :
    fileCountList l = (l.map (fun p => fileCount p.2)).sum := by
  induction l with
  | nil => rfl
  | cons p rest ih => simp [fileCountList, ih]

/-- Permuting a listing does not change its file count. -/
theorem fileCountList_perm {l l' : List (String × FSEntry)}
    (h : List.Perm l l') : fileCountList l = fileCountList l' := by
  rw [fileCountList_eq_sum, fileCountList_eq_sum]
  exact (h.map _).sum_eq

/-- File count of a listing whose entries were tree-sorted, from the
per-entry counts. -/
theorem fileCountList_map_sortTree (l : List (String × FSEntry))
    (ih : ∀ p ∈ l, fileCount (sortTree p.2) = fileCount p.2) :
    fileCountList (l.map (fun p => (p.1, sortTree p.2))) = fileCountList l := by
  induction l with
  | nil => rfl
  | cons p rest ihl =>
    simp only [List.map_cons, fileCountList]
    rw [ih p (by simp), ihl (fun q hq => ih q (List.mem_cons_of_mem _ hq))]

/-- Sorting the tree does not change its file count. -/
theorem fileCount_sortTree (e : FSEntry) :
    fileCount (sortTree e) = fileCount e := by
  suffices h : ∀ N e, esize e ≤ N → fileCount (sortTree e) = fileCount e by
    exact h (esize e) e le_rfl
  intro N
  induction N with
  | zero =>
    intro e he
    have := esize_pos e
    omega
  | succ N ih =>
    intro e he
    cases e with
    | file c => rfl
    | dir es =>
      simp only [sortTree, fileCount]
      rw [fileCountList_perm (sortByName_perm _), sortTreeList_eq]
      apply fileCountList_map_sortTree
      intro p hp
      apply ih
      have h1 := esize_le_of_mem hp
      simp only [esize] at he
      omega

/-- Resolution below a directory: one step into a listing entry. -/
theorem resolvesFile_dir_iff {es : List (String × FSEntry)} {p : List String}
    {c : List Nat} :
    ResolvesFile (.dir es) p c ↔
      ∃ n e q, (n, e) ∈ es ∧ p = n :: q ∧ ResolvesFile e q c := by
  constructor
  · intro h
    cases h with
    | child hmem hres => exact ⟨_, _, _, hmem, rfl, hres⟩
  · rintro ⟨n, e, q, hmem, rfl, hres⟩
    exact .child hmem hres

/-- Resolution at a file: only the empty path. -/
theorem resolvesFile_file_iff {c0 : List Nat} {p : List String}
    {c : List Nat} :
    ResolvesFile (.file c0) p c ↔ p = [] ∧ c = c0 := by
  constructor
  · intro h
    cases h
    exact ⟨rfl, rfl⟩
  · rintro ⟨rfl, rfl⟩
    exact .here _

/-- Membership in the file walk of a listing. -/
theorem mem_walkFilesList {p : List String} {c : List Nat}
    {l : List (String × FSEntry)} :
    (p, c) ∈ walkFilesList l ↔
      ∃ n e q, (n, e) ∈ l ∧ p = n :: q ∧ (q, c) ∈ walkFiles e := by
  induction l with
  | nil => simp [walkFilesList]
  | cons w rest ihl =>
    obtain ⟨n, e⟩ := w
    simp only [walkFilesList, List.mem_append, List.mem_map, ihl]
    constructor
    · rintro (⟨⟨q, c'⟩, hq, heq⟩ | ⟨m, e', q, hmem, rfl, hq⟩)
      · obtain ⟨h1, h2⟩ := Prod.mk.injEq .. ▸ heq
        cases heq
        exact ⟨n, e, q, by simp, rfl, hq⟩
      · exact ⟨m, e', q, List.mem_cons_of_mem _ hmem, rfl, hq⟩
    · rintro ⟨m, e', q, hmem, rfl, hq⟩
      rcases List.mem_cons.mp hmem with h' | h'
      · obtain ⟨h1, h2⟩ := Prod.mk.injEq .. ▸ h'
        cases h'
        exact Or.inl ⟨(q, c), hq, rfl⟩
      · exact Or.inr ⟨m, e', q, h', rfl, hq⟩

/-- The files the sorted walk visits are exactly the files the original tree
resolves. -/
theorem mem_walkFiles_sortTree (e : FSEntry) (p : List String)
    (c : List Nat) :
    (p, c) ∈ walkFiles (sortTree e) ↔ ResolvesFile e p c := by
  suffices h : ∀ N e, esize e ≤ N → ∀ p c,
      ((p, c) ∈ walkFiles (sortTree e) ↔ ResolvesFile e p c) by
    exact h (esize e) e le_rfl p c
  intro N
  induction N with
  | zero =>
    intro e he
    have := esize_pos e
    omega
  | succ N ih =>
    intro e he p c
    cases e with
    | file c0 =>
      simp [sortTree, walkFiles, resolvesFile_file_iff, Prod.ext_iff]
    | dir es =>
      simp only [sortTree, walkFiles]
      rw [mem_walkFilesList, resolvesFile_dir_iff]
      constructor
      · rintro ⟨n, e', q, hmem, rfl, hq⟩
        rw [mem_sortByName, sortTreeList_eq] at hmem
        obtain ⟨w, hw, heq⟩ := List.mem_map.mp hmem
        obtain ⟨h1, h2⟩ := Prod.mk.injEq .. ▸ heq
        refine ⟨n, w.2, q, ?_, rfl, ?_⟩
        · rw [← h1]
          exact hw
        · have hsz : esize w.2 ≤ N := by
            have := esize_le_of_mem hw
            simp only [esize] at he
            omega
          rw [← ih w.2 hsz q c, h2]
          exact hq
      · rintro ⟨n, e', q, hmem, rfl, hq⟩
        refine ⟨n, sortTree e', q, ?_, rfl, ?_⟩
        · rw [mem_sortByName, sortTreeList_eq]
          exact List.mem_map.mpr ⟨(n, e'), hmem, rfl⟩
        · have hsz : esize e' ≤ N := by
            have h2 : esize e' ≤ esizeList es := esize_le_of_mem hmem
            simp only [esize] at he
            omega
          exact (ih e' hsz q c).mpr hq

/-- `namesDistinct` decides `Nodup`. -/
theorem namesDistinct_iff (l : List String) :
    namesDistinct l = true ↔ l.Nodup := by
  induction l with
  | nil => simp [namesDistinct]
  | cons n rest ih => simp [namesDistinct, ih, List.nodup_cons]

/-- `wfList` checks every entry of the listing. -/
theorem wfList_iff (l : List (String × FSEntry)) :
    wfList l = true ↔ ∀ p ∈ l, validName p.1 = true ∧ wfEntry p.2 = true := by
  induction l with
  | nil => simp [wfList]
  | cons w rest ih =>
    obtain ⟨n, e⟩ := w
    simp [wfList, ih, Bool.and_eq_true, and_assoc]

/-- Unfolding of directory well-formedness. -/
theorem wfEntry_dir_iff (es : List (String × FSEntry)) :
    wfEntry (.dir es) = true ↔
      (es.map Prod.fst).Nodup ∧
        ∀ p ∈ es, validName p.1 = true ∧ wfEntry p.2 = true := by
  simp [wfEntry, Bool.and_eq_true, namesDistinct_iff, wfList_iff]

/-- A legal name unpacked. -/
theorem validName_iff (s : String) :
    validName s = true ↔ s ≠ "" ∧ '/' ∉ s.data := by
  simp [validName, Bool.and_eq_true]

/-- Shape of the paths a directory listing walk emits: every path starts
with the name of a listing entry. -/
theorem mem_map_fst_walkFilesList {p : List String}
    {l : List (String × FSEntry)} :
    p ∈ (walkFilesList l).map Prod.fst ↔
      ∃ n e q c, (n, e) ∈ l ∧ p = n :: q ∧ (q, c) ∈ walkFiles e := by
  rw [List.mem_map]
  constructor
  · rintro ⟨⟨p', c⟩, hmem, rfl⟩
    obtain ⟨n, e, q, h1, h2, h3⟩ := mem_walkFilesList.mp hmem
    exact ⟨n, e, q, c, h1, h2, h3⟩
  · rintro ⟨n, e, q, c, h1, rfl, h3⟩
    exact ⟨(n :: q, c), mem_walkFilesList.mpr ⟨n, e, q, h1, rfl, h3⟩, rfl⟩

/-- Distinctness of the walked paths of a listing, from distinct entry names
and per-entry distinctness. -/
theorem nodup_fst_walkFilesList (l : List (String × FSEntry))
    (hnd : (l.map Prod.fst).Nodup)
    (ih : ∀ p ∈ l, ((walkFiles p.2).map Prod.fst).Nodup) :
    ((walkFilesList l).map Prod.fst).Nodup := by
  induction l with
  | nil => simp [walkFilesList]
  | cons w rest ihl =>
    obtain ⟨n, e⟩ := w
    simp only [List.map_cons, List.nodup_cons] at hnd
    simp only [walkFilesList, List.map_append, List.map_map]
    rw [List.nodup_append]
    refine ⟨?_, ?_, ?_⟩
    · have heq : (walkFiles e).map (Prod.fst ∘ fun pc => (n :: pc.1, pc.2)) =
          ((walkFiles e).map Prod.fst).map (fun q => n :: q) := by
        simp [List.map_map, Function.comp]
      rw [heq]
      refine List.Nodup.map ?_ (ih (n, e) (by simp))
      intro a b hab
      injection hab
    · exact ihl hnd.2 (fun q hq => ih q (List.mem_cons_of_mem _ hq))
    · intro x hx hx'
      obtain ⟨⟨q, c⟩, hq, rfl⟩ := List.mem_map.mp hx
      obtain ⟨m, e', q', c', hmem, heq, hq'⟩ :=
        mem_map_fst_walkFilesList.mp hx'
      have heq' : n :: q = m :: q' := heq
      injection heq' with h1 h2
      apply hnd.1
      rw [h1]
      exact List.mem_map.mpr ⟨(m, e'), hmem, rfl⟩

/-- The walked paths of a well-formed tree, after sorting, are distinct. -/
theorem nodup_fst_walkFiles_sortTree (e : FSEntry)
    (hwf : wfEntry e = true) :
    ((walkFiles (sortTree e)).map Prod.fst).Nodup := by
  suffices h : ∀ N e, esize e ≤ N → wfEntry e = true →
      ((walkFiles (sortTree e)).map Prod.fst).Nodup by
    exact h (esize e) e le_rfl hwf
  intro N
  induction N with
  | zero =>
    intro e he
    have := esize_pos e
    omega
  | succ N ih =>
    intro e he hwf
    cases e with
    | file c => simp [sortTree, walkFiles]
    | dir es =>
      obtain ⟨hnd, hall⟩ := (wfEntry_dir_iff es).mp hwf
      simp only [sortTree, walkFiles]
      apply nodup_fst_walkFilesList
      · have hperm : List.Perm
            ((sortByName (sortTreeList es)).map Prod.fst)
            ((sortTreeList es).map Prod.fst) :=
          (sortByName_perm _).map Prod.fst
        rw [hperm.nodup_iff, sortTreeList_eq, List.map_map]
        simpa [Function.comp] using hnd
      · intro p hp
        rw [mem_sortByName, sortTreeList_eq] at hp
        obtain ⟨w, hw, heq⟩ := List.mem_map.mp hp
        have hsz : esize w.2 ≤ N := by
          have := esize_le_of_mem hw
          simp only [esize] at he
          omega
        have hwfw := (hall w hw).2
        subst heq
        exact ih w.2 hsz hwfw

/-- Every component of every walked path of a well-formed tree is a legal
name. -/
theorem valid_walkFiles_sortTree (e : FSEntry) (hwf : wfEntry e = true) :
    ∀ p ∈ (walkFiles (sortTree e)).map Prod.fst, ∀ s ∈ p,
      validName s = true := by
  suffices h : ∀ N e, esize e ≤ N → wfEntry e = true →
      ∀ p ∈ (walkFiles (sortTree e)).map Prod.fst, ∀ s ∈ p,
        validName s = true by
    exact h (esize e) e le_rfl hwf
  intro N
  induction N with
  | zero =>
    intro e he
    have := esize_pos e
    omega
  | succ N ih =>
    intro e he hwf p hp s hs
    cases e with
    | file c =>
      simp [sortTree, walkFiles] at hp
      subst hp
      cases hs
    | dir es =>
      obtain ⟨hnd, hall⟩ := (wfEntry_dir_iff es).mp hwf
      simp only [sortTree, walkFiles] at hp
      obtain ⟨n, e', q, c, hmem, rfl, hq⟩ := mem_map_fst_walkFilesList.mp hp
      rw [mem_sortByName, sortTreeList_eq] at hmem
      obtain ⟨w, hw, heq⟩ := List.mem_map.mp hmem
      obtain ⟨h1, h2⟩ := Prod.mk.injEq .. ▸ heq
      rcases List.mem_cons.mp hs with h' | h'
      · subst h'
        rw [← h1]
        exact (hall w hw).1
      · have hsz : esize w.2 ≤ N := by
          have := esize_le_of_mem hw
          simp only [esize] at he
          omega
        refine ih w.2 hsz (hall w hw).2 q ?_ s h'
        rw [h2]
        exact List.mem_map.mpr ⟨(q, c), hq, rfl⟩

/-- Joining with `'/'` is injective on nonempty lists of separator-free
components. -/
theorem joinComps_inj {p q : List String}
    (hp : ∀ s ∈ p, '/' ∉ s.data) (hq : ∀ s ∈ q, '/' ∉ s.data)
    (hp0 : p ≠ []) (hq0 : q ≠ []) (h : joinComps p = joinComps q) :
    p = q := by
  have hd : List.intercalate ['/'] (p.map String.data) =
      List.intercalate ['/'] (q.map String.data) := congrArg String.data h
  have hsp : (List.intercalate ['/'] (p.map String.data)).splitOn '/' =
      p.map String.data := by
    apply List.splitOn_intercalate
    · intro l hl
      obtain ⟨s, hs, rfl⟩ := List.mem_map.mp hl
      exact hp s hs
    · simpa using hp0
  have hsq : (List.intercalate ['/'] (q.map String.data)).splitOn '/' =
      q.map String.data := by
    apply List.splitOn_intercalate
    · intro l hl
      obtain ⟨s, hs, rfl⟩ := List.mem_map.mp hl
      exact hq s hs
    · simpa using hq0
  have hmaps : p.map String.data = q.map String.data := by
    rw [← hsp, ← hsq, hd]
  exact List.map_injective_iff.mpr (fun a b hab => string_data_inj hab) hmaps

/-- On a nonempty path the subject name is the joined relative path. -/
theorem relName_ne_nil (root : String) {p : List String} (h : p ≠ []) :
    relName root p = joinComps p := by
  cases p with
  | nil => exact absurd rfl h
  | cons a rest => rfl

/-- `getD` returns a list element or the default. -/
theorem getD_mem_or (l : List Char) (i : Nat) (d : Char) :
    l.getD i d ∈ l ∨ l.getD i d = d := by
  induction l generalizing i with
  | nil => right; simp
  | cons a t ih =>
    cases i with
    | zero => left; simp
    | succ j =>
      rcases ih j with h | h
      · exact Or.inl (by rw [List.getD_cons_succ]; exact List.mem_cons_of_mem a h)
      · exact Or.inr (by rw [List.getD_cons_succ]; exact h)

/-- Every character the hex encoder emits is one of the sixteen lowercase
hex digits. -/
theorem hexEncode_lower (bs : List Nat) :
    (hexEncode bs).data.all (fun ch => decide (ch ∈ hexDigits)) = true := by
  rw [List.all_eq_true]
  intro ch hch
  rw [decide_eq_true_iff]
  have hch' : ch ∈ (bs.map hexByte).flatten := hch
  obtain ⟨l, hl, hc⟩ := List.mem_flatten.mp hch'
  obtain ⟨b, _, rfl⟩ := List.mem_map.mp hl
  simp only [hexByte, List.mem_cons, List.not_mem_nil, or_false] at hc
  rcases hc with rfl | rfl
  · rcases getD_mem_or hexDigits (b >>> 4) '0' with h | h
    · exact h
    · rw [h]; decide
  · rcases getD_mem_or hexDigits (b % 16) '0' with h | h
    · exact h
    · rw [h]; decide

/-- The SHA-256 model reproduces the FIPS 180-4 digest of the empty
message. -/
theorem sha256_empty_vector :
    hexEncode (sha256 []) =
      "e3b0c44298fc1c149afbf4c8996fb92427ae41e4649b934ca495991b7852b855" := by
  rfl

/-- The SHA-256 model reproduces the FIPS 180-4 digest of `"abc"`. -/
theorem sha256_abc_vector :
    hexEncode (sha256 [0x61, 0x62, 0x63]) =
      "ba7816bf8f01cfea414140de5dae2223b00361a396177a9cb410ff61f20015ad" := by
  rfl

/-! ## Claim theorems -/

/-- C1: scanning an existing regular file yields exactly one subject, named
by the base name of the scanned path, whose digest is the single-entry
mapping from `"sha256"` to the hexadecimal encoding of the SHA-256 hash of
the contents; and every character of that encoding is a lowercase hex
digit. -/
theorem single_file_subject (root : String) (c : List Nat) :
    subjects root (some (.file c)) =
      .ok [⟨basename root, [("sha256", hexEncode (sha256 c))]⟩] ∧
    (hexEncode (sha256 c)).data.all (fun ch => decide (ch ∈ hexDigits)) = true :=
  ⟨rfl, hexEncode_lower _⟩

/-- C6: scanning a path that resolves to no filesystem entry fails with the
walker's not-found error for that path, which `Generate` turns into the
message carrying the provided path string verbatim. -/
theorem scan_not_found (p : String) :
    subjects p none = .error (.notFound p) ∧
    generateScan p none =
      .error ("resource path not found: [provided=" ++ p ++ "]") :=
  ⟨rfl, rfl⟩

/-- C3: with the `GITHUB_ACTIONS` flag set to `"true"` the derived builder
identity is `"https://github.com/" ++ repo ++
"/Attestations/GitHubHostedActions@v1"`; with the flag not `"true"` it is
`"https://github.com/" ++ repo ++ "/Attestations/SelfHostedActions@v1"`. -/
theorem builder_identity (subs : List Subject) (env : String)
    (gh : GitHubContext) :
    (env = "true" →
      (buildStatement subs env gh).predicate.builderId =
        "https://github.com/" ++ gh.repository ++
          "/Attestations/GitHubHostedActions@v1") ∧
    (env ≠ "true" →
      (buildStatement subs env gh).predicate.builderId =
        "https://github.com/" ++ gh.repository ++
          "/Attestations/SelfHostedActions@v1") := by
  constructor
  · intro h
    subst h
    simp [buildStatement, builderID, gitHubHostedIDSuffix, String.append_assoc]
  · intro h
    simp [buildStatement, builderID, selfHostedIDSuffix, h, String.append_assoc]

/-- Witness for C3 at a concrete repository and both flag values. -/
theorem builder_identity_witness :
    (buildStatement [] "true" ⟨"org/repo", "s", "w", "1", []⟩).predicate.builderId =
      "https://github.com/" ++ "org/repo" ++
        "/Attestations/GitHubHostedActions@v1" ∧
    (buildStatement [] "" ⟨"org/repo", "s", "w", "1", []⟩).predicate.builderId =
      "https://github.com/" ++ "org/repo" ++
        "/Attestations/SelfHostedActions@v1" :=
  ⟨(builder_identity [] "true" ⟨"org/repo", "s", "w", "1", []⟩).1 rfl,
   (builder_identity [] "" ⟨"org/repo", "s", "w", "1", []⟩).2 (by decide)⟩

/-- C4: the assembled recipe has the fixed workflow type constant, the
context's workflow name as entry point, material index 0, and the trigger
event's inputs passed through verbatim. -/
theorem recipe_fields (subs : List Subject) (env : String)
    (gh : GitHubContext) :
    (buildStatement subs env gh).predicate.recipe.rtype =
      "https://github.com/Attestations/GitHubActionsWorkflow@v1" ∧
    (buildStatement subs env gh).predicate.recipe.entryPoint = gh.workflow ∧
    (buildStatement subs env gh).predicate.recipe.definedInMaterial = 0 ∧
    (buildStatement subs env gh).predicate.recipe.arguments = gh.eventInputs :=
  ⟨rfl, rfl, rfl, rfl⟩

/-- C5: the materials list is exactly the one source-repository entry with
the `git+` URI and the `sha1` digest of the commit. -/
theorem materials_single (subs : List Subject) (env : String)
    (gh : GitHubContext) :
    (buildStatement subs env gh).predicate.materials =
      [⟨"git+https://github.com/" ++ gh.repository, [("sha1", gh.sha)]⟩] := by
  simp [buildStatement, ← String.append_assoc]

/-- C7: the statement builder is deterministic — two runs on identical
inputs (same subjects, same context, same environment flag) serialize to
identical bytes.  In this embedding the builder and the renderer are pure
functions of exactly these inputs, so a second invocation is the same
application. -/
theorem builder_idempotent (subs : List Subject) (env : String)
    (gh : GitHubContext) :
    renderStatement (buildStatement subs env gh) =
      renderStatement (buildStatement subs env gh) ∧
    buildStatement subs env gh = buildStatement subs env gh :=
  ⟨rfl, rfl⟩

/-- C8: statement building never errors: for every subject list and every
parsed context — including degenerate field values — the step returns the
assembled statement, and context fields flow verbatim into the output
(subjects unchanged, repository and run identifier spliced into the
invocation id). -/
theorem build_step_total (subs : List Subject) (env : String)
    (gh : GitHubContext) :
    (buildStep subs env gh).isOk = true ∧
    buildStep subs env gh = .ok (buildStatement subs env gh) ∧
    (buildStatement subs env gh).subject = subs ∧
    (buildStatement subs env gh).predicate.metadata.buildInvocationID =
      "https://github.com/" ++ gh.repository ++ "/actions/runs/" ++ gh.runID := by
  refine ⟨rfl, rfl, rfl, ?_⟩
  simp [buildStatement, String.append_assoc]

/-- C10: the hosted suffix is chosen exactly when the environment value is
the literal string `"true"`; every other value (including `"TRUE"`, `"1"`
and the empty string of an unset variable) selects the self-hosted
suffix. -/
theorem builderID_hosted_iff (env repoURI : String) :
    (builderID env repoURI = repoURI ++ "/Attestations/GitHubHostedActions@v1"
      ↔ env = "true") ∧
    (env ≠ "true" →
      builderID env repoURI = repoURI ++ "/Attestations/SelfHostedActions@v1") := by
  constructor
  · constructor
    · intro h
      by_contra hne
      rw [builderID, if_neg hne] at h
      have := string_append_left_cancel h
      simp [selfHostedIDSuffix] at this
    · intro h
      rw [builderID, if_pos h]
      rfl
  · intro h
    rw [builderID, if_neg h]
    rfl

/-- Witness for C10 at the values the claim singles out. -/
theorem builderID_hosted_iff_witness :
    builderID "TRUE" "r" = "r" ++ "/Attestations/SelfHostedActions@v1" ∧
    builderID "1" "r" = "r" ++ "/Attestations/SelfHostedActions@v1" ∧
    builderID "" "r" = "r" ++ "/Attestations/SelfHostedActions@v1" ∧
    builderID "true" "r" = "r" ++ "/Attestations/GitHubHostedActions@v1" :=
  ⟨(builderID_hosted_iff "TRUE" "r").2 (by decide),
   (builderID_hosted_iff "1" "r").2 (by decide),
   (builderID_hosted_iff "" "r").2 (by decide),
   (builderID_hosted_iff "true" "r").1.mpr rfl⟩

/-- C2: scanning an existing directory yields one subject per regular file
under it (counted recursively), each subject is exactly a file the tree
resolves, named by its `/`-joined path relative to the root — so directory
entries themselves contribute nothing — and the empty directory yields the
empty list without error. -/
theorem directory_scan_subjects (root : String)
    (es : List (String × FSEntry)) :
    ∃ l, subjects root (some (.dir es)) = Except.ok l ∧
      l.length = fileCount (.dir es) ∧
      (∀ s, s ∈ l ↔ ∃ p c, ResolvesFile (.dir es) p c ∧
        s = ⟨joinComps p, digestOf c⟩) ∧
      (es = [] → l = []) := by
  refine ⟨walkCollect root [] (sortTree (.dir es)), rfl, ?_, ?_, ?_⟩
  · rw [walkCollect_eq_walkFiles, List.length_map, walkFiles_length,
      fileCount_sortTree]
  · intro s
    rw [walkCollect_eq_walkFiles]
    simp only [List.mem_map]
    constructor
    · rintro ⟨⟨p, c⟩, hmem, rfl⟩
      have hres := (mem_walkFiles_sortTree (.dir es) p c).mp hmem
      have hne : p ≠ [] := by
        rcases resolvesFile_dir_iff.mp hres with ⟨n, e, q, _, rfl, _⟩
        simp
      exact ⟨p, c, hres, by simp [relName_ne_nil root hne]⟩
    · rintro ⟨p, c, hres, rfl⟩
      have hne : p ≠ [] := by
        rcases resolvesFile_dir_iff.mp hres with ⟨n, e, q, _, rfl, _⟩
        simp
      exact ⟨(p, c), (mem_walkFiles_sortTree (.dir es) p c).mpr hres,
        by simp [relName_ne_nil root hne]⟩
  · rintro rfl
    rfl

/-- Witness for C2: the empty directory scans to the empty subject list. -/
theorem directory_scan_subjects_witness :
    subjects "r" (some (.dir [])) = Except.ok [] := by
  obtain ⟨l, h1, _, _, h4⟩ := directory_scan_subjects "r" []
  rw [h4 rfl] at h1
  exact h1

/-- C9: the subjects of a directory scan come out exactly in the walker's
traversal order (one per walked file, left to right); the produced name
list is not itself sorted — witnessed by a scan that emits `a/b.txt` before
the lexicographically smaller `a.txt` — and with the name uniqueness the
filesystem guarantees (per-directory distinct, separator-free names) the
subject names are pairwise distinct. -/
theorem traversal_order_subjects :
    (∀ root e, (walkCollect root [] (sortTree e)).map Subject.name =
        (walkFiles (sortTree e)).map (fun pc => relName root pc.1)) ∧
    ((walkCollect "art" [] (sortTree (.dir exampleEntries))).map Subject.name =
        ["a/b.txt", "a.txt"] ∧
      ¬ List.Chain' (fun a b => strLe a b = true)
        ((walkCollect "art" [] (sortTree (.dir exampleEntries))).map
          Subject.name)) ∧
    (∀ root es, wfEntry (.dir es) = true →
      ((walkCollect root [] (sortTree (.dir es))).map Subject.name).Nodup) := by
  refine ⟨?_, ⟨?_, ?_⟩, ?_⟩
  · intro root e
    rw [walkCollect_eq_walkFiles]
    simp [List.map_map, Function.comp]
  · rfl
  · intro hch
    have h1 : (walkCollect "art" [] (sortTree (.dir exampleEntries))).map
        Subject.name = ["a/b.txt", "a.txt"] := rfl
    rw [h1] at hch
    have h2 : strLe "a/b.txt" "a.txt" = true := by
      cases hch with
      | cons h _ => exact h
    exact absurd h2 (by decide)
  · intro root es hwf
    rw [walkCollect_eq_walkFiles]
    have hmm : ((walkFiles (sortTree (.dir es))).map
          (fun pc => Subject.mk (relName root ([] ++ pc.1)) (digestOf pc.2))).map
        Subject.name =
        ((walkFiles (sortTree (.dir es))).map Prod.fst).map (relName root) := by
      simp [List.map_map, Function.comp]
    rw [hmm]
    apply List.Nodup.map_on
    · intro x hx y hy hxy
      have hxs : ∃ n e q c, (n, e) ∈ sortByName (sortTreeList es) ∧
          x = n :: q ∧ (q, c) ∈ walkFiles e := mem_map_fst_walkFilesList.mp hx
      have hys : ∃ n e q c, (n, e) ∈ sortByName (sortTreeList es) ∧
          y = n :: q ∧ (q, c) ∈ walkFiles e := mem_map_fst_walkFilesList.mp hy
      have hxne : x ≠ [] := by
        obtain ⟨n, e, q, c, _, rfl, _⟩ := hxs
        simp
      have hyne : y ≠ [] := by
        obtain ⟨n, e, q, c, _, rfl, _⟩ := hys
        simp
      have hxv : ∀ s ∈ x, validName s = true :=
        valid_walkFiles_sortTree (.dir es) hwf x hx
      have hyv : ∀ s ∈ y, validName s = true :=
        valid_walkFiles_sortTree (.dir es) hwf y hy
      rw [relName_ne_nil root hxne, relName_ne_nil root hyne] at hxy
      exact joinComps_inj
        (fun s hs => ((validName_iff s).mp (hxv s hs)).2)
        (fun s hs => ((validName_iff s).mp (hyv s hs)).2)
        hxne hyne hxy
    · exact nodup_fst_walkFiles_sortTree (.dir es) hwf

/-- Witness for C9: distinct names on a concrete well-formed two-level
scan. -/
theorem traversal_order_subjects_witness :
    ((walkCollect "art" [] (sortTree (.dir exampleEntries))).map
      Subject.name).Nodup :=
  traversal_order_subjects.2.2 "art" exampleEntries (by decide)

end SLSA
